import Mathlib

/-!
Verification of the CodeIndexer repository
============================================

Shallow embedding of the Python sources of the Coding-Agent repository:

* `src/code_indexer.py` — the live `CodeIndexer` class (`__init__`, `index`,
  `_walk_repo`, `_index_file`, `_walk_ast`, `_build_folder_index`,
  `_build_file_objects`, `_range`), and, for the query engine, the
  `trace` method of the `CodeIndexer` variant kept (commented out) at the
  bottom of the same file, which is the implementation `src/main.py` calls.
* `src/main.py` — `build_context`.

Python dicts are modelled as insertion-ordered association lists
(`dictSet` keeps the original position of an updated key, like CPython),
Python sets as duplicate-free lists built with a membership-guarded add,
and fallible operations (file reads that may raise, attribute access on a
missing tree-sitter field) with `Except String`.  Tree-sitter syntax trees
are an external capability: they enter the model as already-parsed `Node`
values whose children optionally carry a field tag, exactly the interface
(`type`, `text`, `start_point`/`end_point`, `children`,
`child_by_field_name`) the Python code consumes.
-/

/-! ## Python dict / set primitives -/

/-- Lookup in an insertion-ordered dict (`d[k]` / `d.get(k)`). -/
def dictFind {α : Type} (k : String) : List (String × α) → Option α
  | [] => none
  | (k0, v) :: rest => if k0 = k then some v else dictFind k rest

/-- `d.get(k, dflt)`. -/
def dictGetD {α : Type} (k : String) (d : List (String × α)) (dflt : α) : α :=
  (dictFind k d).getD dflt

/-- `d[k] = v`: replaces in place (keeping the key's original position,
as CPython dicts do) or appends a fresh key at the end. -/
def dictSet {α : Type} (k : String) (v : α) : List (String × α) → List (String × α)
  | [] => [(k, v)]
  | (k0, v0) :: rest => if k0 = k then (k0, v) :: rest else (k0, v0) :: dictSet k v rest

/-- In-place mutation `f` of the value stored at `k` (`d[k].mutate()`).
On a missing key CPython would raise `KeyError`; every use below is on a
key that is guaranteed present, so the missing-key case is the identity. -/
def dictModify {α : Type} (k : String) (f : α → α) : List (String × α) → List (String × α)
  | [] => []
  | (k0, v) :: rest => if k0 = k then (k0, f v) :: rest else (k0, v) :: dictModify k f rest

/-- Python `set.add`: sets are modelled as duplicate-free lists, so `add`
is a membership-guarded append (iteration order of a CPython set is not
observable; only membership and cardinality are relied upon). -/
def setAdd (x : String) (s : List String) : List String :=
  if x ∈ s then s else s ++ [x]

/-- `d.setdefault(k, set()).add(x)`. -/
def dictSetdefaultAdd (k x : String) : List (String × List String) → List (String × List String)
  | [] => [(k, [x])]
  | (k0, v) :: rest =>
    if k0 = k then (k0, setAdd x v) :: rest else (k0, v) :: dictSetdefaultAdd k x rest

/-- `d.setdefault(k, []).append(x)`. -/
def dictSetdefaultAppend (k x : String) : List (String × List String) → List (String × List String)
  | [] => [(k, [x])]
  | (k0, v) :: rest =>
    if k0 = k then (k0, v ++ [x]) :: rest else (k0, v) :: dictSetdefaultAppend k x rest

/-- First-occurrence deduplication (the key order of a dict populated with
`setdefault` in a loop). -/
def firstDedupAux : List String → List String → List String
  | [], _ => []
  | x :: rest, seen =>
    if x ∈ seen then firstDedupAux rest seen else x :: firstDedupAux rest (x :: seen)

def firstDedup (l : List String) : List String := firstDedupAux l []

/-! ## Path / string helpers (kernel-computable stand-ins for `os.path` and
`str` methods; paths use `/` separators) -/

/-- `file_path.replace('/', '.')[:-3]` — the file-module path of a `.py` file. -/
def pyModule (p : String) : String :=
  ⟨(p.data.map (fun c => if c = '/' then '.' else c)).take (p.data.length - 3)⟩

def splitOnCharAux (sep : Char) : List Char → List Char → List (List Char)
  | [], acc => [acc.reverse]
  | c :: rest, acc =>
    if c = sep then acc.reverse :: splitOnCharAux sep rest []
    else splitOnCharAux sep rest (c :: acc)

/-- `s.split(sep)` for a one-character separator; never returns `[]`. -/
def splitOnChar (sep : Char) (s : String) : List String :=
  (splitOnCharAux sep s.data []).map (fun cs => ⟨cs⟩)

def joinSep (sep : String) : List String → String
  | [] => ""
  | [x] => x
  | x :: rest => x ++ sep ++ joinSep sep rest

/-- `os.path.dirname` for `/`-separated relative paths: `""` when there is
no separator. -/
def dirname (p : String) : String := joinSep "/" (splitOnChar '/' p).dropLast

/-- `os.path.basename` for `/`-separated relative paths. -/
def basename (p : String) : String := (splitOnChar '/' p).getLastD ""

/-! ## Data model: symbol records (the dict values of
`CodeIndexer.symbol_defs`) -/

/-- `CodeIndexer._range`: 1-based inclusive line range from the node's
0-based `start_point[0]` / `end_point[0]`. -/
structure LineRange where
  start_line : Nat
  end_line : Nat
deriving DecidableEq, Repr

/-- A control-flow marker appended by `_walk_ast` (`purpose` is constantly
`None` and is omitted). -/
structure CFMarker where
  kind : String
  code_range : LineRange
deriving DecidableEq, Repr

/-- The per-file `{"internal": [...], "external": [...]}` import record. -/
structure ImportRec where
  internal : List String
  external : List String
deriving DecidableEq, Repr

/-- A `symbol_defs` record: the class dicts carry `methods` and
`inherits_from`, the function dicts carry `calls`, `called_by`,
`callbacks` (Python sets) and `control_flow` (a list). -/
inductive SymbolMeta where
  | cls (name qualified_name file : String)
      (methods inherits_from : List String) (code_range : LineRange)
  | fn (name qualified_name file : String)
      (calls called_by callbacks : List String)
      (control_flow : List CFMarker) (code_range : LineRange)
deriving DecidableEq, Repr

def SymbolMeta.file : SymbolMeta → String
  | .cls _ _ f _ _ _ => f
  | .fn _ _ f _ _ _ _ _ => f

def SymbolMeta.qname : SymbolMeta → String
  | .cls _ q _ _ _ _ => q
  | .fn _ q _ _ _ _ _ _ => q

/-- `symbol_defs[current_class]["methods"].append(name)`.  The entry under
`current_class` is always a class record; on a function record CPython
would raise `KeyError` (unreachable), modelled as the identity. -/
def SymbolMeta.appendMethod (nm : String) : SymbolMeta → SymbolMeta
  | .cls n q f ms inh r => .cls n q f (ms ++ [nm]) inh r
  | m => m

/-- `symbol_defs[current_function]["calls"].add(c)` (function records only,
like `appendMethod`). -/
def SymbolMeta.addCall (c : String) : SymbolMeta → SymbolMeta
  | .fn n q f cs cb cbs cfl r => .fn n q f (setAdd c cs) cb cbs cfl r
  | m => m

/-- One `callbacks.add` per bare-identifier argument, in child order. -/
def SymbolMeta.addCallbacks (ids : List String) : SymbolMeta → SymbolMeta
  | .fn n q f cs cb cbs cfl r => .fn n q f cs cb (ids.foldl (fun s x => setAdd x s) cbs) cfl r
  | m => m

def SymbolMeta.addControlFlow (m : CFMarker) : SymbolMeta → SymbolMeta
  | .fn n q f cs cb cbs cfl r => .fn n q f cs cb cbs (cfl ++ [m]) r
  | m => m

def ImportRec.addExternal (xs : List String) (r : ImportRec) : ImportRec :=
  ⟨r.internal, r.external ++ xs⟩

def ImportRec.addInternal (xs : List String) (r : ImportRec) : ImportRec :=
  ⟨r.internal ++ xs, r.external⟩

/-! ## Tree-sitter nodes (the Parse Adapter's output contract) -/

mutual
/-- A parsed syntax-tree node: type tag, raw text, 0-based start/end rows,
and the ordered children, each optionally carrying a field tag
(`child_by_field_name` finds the first child tagged with the requested
field; `children` iterates all of them, tagged or not, exactly as
tree-sitter's Python binding does). -/
inductive Node : Type where
  | mk (ty text : String) (startRow endRow : Nat) (children : NodeList)

inductive NodeList : Type where
  | nil
  | cons (tag : Option String) (n : Node) (rest : NodeList)
end

def Node.ty : Node → String
  | .mk t _ _ _ _ => t

def Node.text : Node → String
  | .mk _ tx _ _ _ => tx

def Node.startRow : Node → Nat
  | .mk _ _ s _ _ => s

def Node.endRow : Node → Nat
  | .mk _ _ _ e _ => e

def Node.childrenList : Node → NodeList
  | .mk _ _ _ _ cs => cs

/-- `node.start_point[0] + 1` / `node.end_point[0] + 1` (`CodeIndexer._range`). -/
def Node.range (n : Node) : LineRange := ⟨n.startRow + 1, n.endRow + 1⟩

def NodeList.findField (f : String) : NodeList → Option Node
  | .nil => none
  | .cons tag n rest => if tag = some f then some n else NodeList.findField f rest

/-- `node.child_by_field_name(f)` (`None` when no child carries the field). -/
def Node.childByField (n : Node) (f : String) : Option Node :=
  n.childrenList.findField f

/-- The texts of the `dotted_name` children of an `import_statement`
(`for c in node.children: if c.type == "dotted_name"`), in child order. -/
def NodeList.dottedTexts : NodeList → List String
  | .nil => []
  | .cons _ n rest => (if n.ty = "dotted_name" then [n.text] else []) ++ rest.dottedTexts

/-- The texts of the `identifier` children of an `argument_list`
(`for arg in args.children: if arg.type == "identifier"`), in child order. -/
def NodeList.identifierTexts : NodeList → List String
  | .nil => []
  | .cons _ n rest => (if n.ty = "identifier" then [n.text] else []) ++ rest.identifierTexts

/-- Convenience constructor for concrete trees. -/
def nodeOf (ty text : String) (startRow endRow : Nat)
    (children : List (Option String × Node)) : Node :=
  .mk ty text startRow endRow (go children)
where
  go : List (Option String × Node) → NodeList
    | [] => .nil
    | (t, n) :: rest => .cons t n (go rest)

/-! ## The raw stores of the live `CodeIndexer` and the AST walk

The live class also declares `self.calls = {}` and
`self.callback_used_by = {}` but never reads or writes them; they are
omitted from the state. -/

structure IState where
  files_source : List (String × String)
  imports : List (String × ImportRec)
  symbol_defs : List (String × SymbolMeta)
  called_by : List (String × List String)
deriving DecidableEq, Repr

def initState : IState := ⟨[], [], [], []⟩

/-- The control-flow marker kind:
`"if" if node.type == "if_statement" else "try"`. -/
def cfKind (ty : String) : String :=
  if ty = "if_statement" then "if" else "try"

/-- The store updates of the `node.type == "call"` branch of
`_walk_ast` (reached only under an enclosing function `fname`): a bare
`identifier` call target lands in the function's `calls` set and in the
repo-level `called_by` map, and every bare-identifier argument lands in
the function's `callbacks` set. -/
def callStoreUpdate (n : Node) (fname : String) (st : IState) : IState :=
  let st1 :=
    match n.childByField "function" with
    | some fnNode =>
      if fnNode.ty = "identifier" then
        { st with symbol_defs := dictModify fname (SymbolMeta.addCall fnNode.text) st.symbol_defs,
                  called_by := dictSetdefaultAdd fnNode.text fname st.called_by }
      else st
    | none => st
  match n.childByField "arguments" with
  | some args =>
    { st1 with symbol_defs :=
        dictModify fname (SymbolMeta.addCallbacks args.childrenList.identifierTexts) st1.symbol_defs }
  | none => st1

/-- The per-node body of `CodeIndexer._walk_ast` (everything before the
`for child in node.children` loop): a sequence of `if node.type == ...`
branches on the single type tag, so exactly one branch fires.  Returns the
updated stores together with the `current_class` / `current_function`
values threaded into the node's subtree.  `.text.decode()` on a missing
`name` field would raise `AttributeError`, modelled as `Except.error`. -/
def processNode (n : Node) (filePath : String) (cc cf : Option String) (st : IState) :
    Except String (IState × Option String × Option String) :=
  if n.ty = "class_definition" then
    match n.childByField "name" with
    | none => .error "AttributeError"
    | some nameNode =>
      let name := nameNode.text
      let qname := pyModule filePath ++ "." ++ name
      .ok ({ st with symbol_defs :=
               dictSet qname (.cls name qname filePath [] [] n.range) st.symbol_defs },
           some qname, cf)
  else if n.ty = "function_definition" then
    match n.childByField "name" with
    | none => .error "AttributeError"
    | some nameNode =>
      let name := nameNode.text
      let qname :=
        match cc with
        | some c => c ++ "." ++ name
        | none => pyModule filePath ++ "." ++ name
      let st1 := { st with symbol_defs :=
                     dictSet qname (.fn name qname filePath [] [] [] [] n.range) st.symbol_defs }
      let st2 :=
        match cc with
        | some c => { st1 with symbol_defs := dictModify c (SymbolMeta.appendMethod name) st1.symbol_defs }
        | none => st1
      .ok (st2, cc, some qname)
  else if n.ty = "import_statement" then
    .ok ({ st with imports :=
             dictModify filePath (ImportRec.addExternal n.childrenList.dottedTexts) st.imports },
         cc, cf)
  else if n.ty = "import_from_statement" then
    match n.childByField "module" with
    | some m =>
      .ok ({ st with imports := dictModify filePath (ImportRec.addInternal [m.text]) st.imports },
           cc, cf)
    | none => .ok (st, cc, cf)
  else if n.ty = "call" then
    match cf with
    | none => .ok (st, cc, cf)
    | some fname => .ok (callStoreUpdate n fname st, cc, cf)
  else if n.ty = "if_statement" ∨ n.ty = "try_statement" then
    match cf with
    | none => .ok (st, cc, cf)
    | some fname =>
      .ok ({ st with symbol_defs :=
               (dictModify fname
                 (SymbolMeta.addControlFlow ⟨cfKind n.ty, n.range⟩)
                 st.symbol_defs) },
           cc, cf)
  else .ok (st, cc, cf)

mutual
/-- `CodeIndexer._walk_ast`: the per-node body, then recursion into every
child with the (possibly updated) enclosing class and function. -/
def walkAst : Node → String → Option String → Option String → IState → Except String IState
  | n@(.mk _ _ _ _ cs), filePath, cc, cf, st =>
    match processNode n filePath cc cf st with
    | .error e => .error e
    | .ok (st1, cc1, cf1) => walkChildren cs filePath cc1 cf1 st1

def walkChildren : NodeList → String → Option String → Option String → IState → Except String IState
  | .nil, _, _, _, st => .ok st
  | .cons _ c rest, filePath, cc, cf, st =>
    match walkAst c filePath cc cf st with
    | .error e => .error e
    | .ok st1 => walkChildren rest filePath cc cf st1
end

/-- `CodeIndexer._index_file` after the file has been read and parsed:
record the source, seed the file's import record, walk the tree. -/
def indexFile (st : IState) (relPath source : String) (tree : Node) : Except String IState :=
  walkAst tree relPath none none
    { st with files_source := dictSet relPath source st.files_source,
              imports := dictSet relPath ⟨[], []⟩ st.imports }

/-- One subject file as the Source Walker hands it over: its relative
path, and the outcome of `open(...).read()` (which may raise) paired with
the parsed tree (tree-sitter itself never raises). -/
structure RepoFile where
  relPath : String
  read : Except String (String × Node)

/-- `CodeIndexer._walk_repo` over the enumerated subject files.
`_index_file` is called with no exception handler, so a failing read
propagates and aborts the remaining iteration. -/
def walkRepo (st : IState) : List RepoFile → Except String IState
  | [] => .ok st
  | f :: rest =>
    match f.read with
    | .error e => .error e
    | .ok (src, tree) =>
      match indexFile st f.relPath src tree with
      | .error e => .error e
      | .ok st1 => walkRepo st1 rest

/-! ## The assembled Index document (`CodeIndexer.json`)

Fields that the live code sets to a constant and never touches
(`symbol_type`, `class_type = None`, `async = False`, every `summary =
None`, `entry_points = []`, the per-callback `confidence`/`reason` tags,
and the `metadata` entries other than `external_dependencies`) are
omitted; `used_as_callback_by` keeps the `used_by` names of the emitted
callback dicts. -/

structure ClassView where
  name : String
  qualified_name : String
  class_inherits_from : List String
  class_methods : List String
  code_range : LineRange
deriving DecidableEq, Repr

structure FunctionView where
  name : String
  qualified_name : String
  calls : List String
  called_by : List String
  used_as_callback_by : List String
  control_flow : List CFMarker
  code_range : LineRange
deriving DecidableEq, Repr

structure FileView where
  path : String
  imports : ImportRec
  classes : List ClassView
  functions : List FunctionView
deriving DecidableEq, Repr

structure FolderView where
  path : String
  files : List String
deriving DecidableEq, Repr

structure IndexJson where
  repo_id : String
  root_path : String
  external_dependencies : List String
  folders : List FolderView
  files : List FileView
deriving DecidableEq, Repr

def classViewOf : SymbolMeta → Option ClassView
  | .cls n q _ ms inh r => some ⟨n, q, inh, ms, r⟩
  | _ => none

def fnViewOf : SymbolMeta → Option FunctionView
  | .fn n q _ cs cb cbs cfl r => some ⟨n, q, cs, cb, cbs, cfl, r⟩
  | _ => none

/-- `CodeIndexer._build_file_objects`.  The Python version first seeds a
dict keyed by each symbol's owning file (`setdefault` in `symbol_defs`
order — first-occurrence order, which `firstDedup` reproduces), then
appends one class/function view per symbol into its file's entry in
`symbol_defs` order, then emits one file object per dict entry; the
grouped form below produces the same file list.  Only files owning at
least one symbol ever become keys.  `self.imports[file_path]` is a plain
subscript; the key is always present because every symbol's file went
through `_index_file` (the `getD` default is unreachable). -/
def fileViewOf (st : IState) (p : String) : FileView :=
  { path := p
    imports := dictGetD p st.imports ⟨[], []⟩
    classes := st.symbol_defs.filterMap (fun kv =>
      if kv.2.file = p then classViewOf kv.2 else none)
    functions := st.symbol_defs.filterMap (fun kv =>
      if kv.2.file = p then fnViewOf kv.2 else none) }

def buildFileObjects (st : IState) : List FileView :=
  (firstDedup (st.symbol_defs.map (fun kv => kv.2.file))).map (fileViewOf st)

/-- `CodeIndexer._build_folder_index`: group `files_source` keys by
directory, in insertion order, then emit folder objects. -/
def buildFolders (st : IState) : List FolderView :=
  (st.files_source.foldl
      (fun acc kv => dictSetdefaultAppend (dirname kv.1) (basename kv.1) acc) []).map
    (fun kv => ⟨if kv.1 = "" then "./" else kv.1 ++ "/", kv.2⟩)

/-- `CodeIndexer.index()` for a repository whose walker enumerated
`files`: `_walk_repo`, `_build_folder_index`, `_build_file_objects`, and
the JSON skeleton from `__init__`, whose `metadata.external_dependencies`
is initialised to `[]` and never written afterwards. -/
def indexRepo (repoId rootPath : String) (files : List RepoFile) : Except String IndexJson :=
  match walkRepo initState files with
  | .error e => .error e
  | .ok st =>
    .ok { repo_id := repoId, root_path := rootPath,
          external_dependencies := [],
          folders := buildFolders st,
          files := buildFileObjects st }

/-! ## The Trace Engine

`trace` lives in the `CodeIndexer` variant kept commented out at the
bottom of `src/code_indexer.py` (the implementation `src/main.py` invokes
through `indexer.trace`).  Its nested `dfs` closure mutates a shared
`visited` set and `result` dict:

    def dfs(symbol, d):
        if d == 0 or symbol in visited: return
        visited.add(symbol); result[symbol] = list(self.calls.get(symbol, []))
        for callee in self.calls.get(symbol, []): dfs(callee, d - 1)

`dfsLoop` is the explicit-state rendering of that recursion: the worklist
holds the pending `dfs(symbol, d)` calls in call order (a popped frame
pushes its callees, each with `d - 1`, in front of the remaining frames),
and the state carries `visited` and `result`.  Frame order, guard checks
and store updates coincide with the Python call sequence.  Termination:
every expanded frame inserts a fresh symbol into `visited`, and any
symbol with outgoing edges lives in `traceUniv`. -/

structure TraceSt where
  visited : List String
  result : List (String × List String)
deriving DecidableEq, Repr

/-- Every string occurring in the call store (keys and targets): the only
symbols whose expansion can push further frames. -/
def traceUniv : List (String × List String) → List String
  | [] => []
  | kv :: rest => kv.1 :: (kv.2 ++ traceUniv rest)

theorem mem_traceUniv_of_find {g : List (String × List String)} {s : String}
    {ts : List String} (h : dictFind s g = some ts) : s ∈ traceUniv g := by
  induction g with
  | nil => simp [dictFind] at h
  | cons kv rest ih =>
    cases kv with
    | mk k0 v =>
      rw [dictFind] at h
      by_cases hk : k0 = s
      · subst hk
        exact List.mem_cons_self _ _
      · rw [if_neg hk] at h
        exact List.mem_cons_of_mem _ (List.mem_append_right _ (ih h))

theorem getD_nil_of_not_mem_traceUniv {g : List (String × List String)} {s : String}
    (h : s ∉ traceUniv g) : dictGetD s g [] = [] := by
  unfold dictGetD
  cases hf : dictFind s g with
  | none => rfl
  | some ts => exact absurd (mem_traceUniv_of_find hf) h

theorem sdiff_toFinset_cons_lt {u v : List String} {s : String}
    (hu : s ∈ u) (hv : s ∉ v) :
    (u.toFinset \ (s :: v).toFinset).card < (u.toFinset \ v.toFinset).card := by
  apply Finset.card_lt_card
  have hsub : u.toFinset \ (s :: v).toFinset ⊆ u.toFinset \ v.toFinset := by
    apply Finset.sdiff_subset_sdiff (le_refl _)
    rw [List.toFinset_cons]
    exact Finset.subset_insert _ _
  rw [Finset.ssubset_iff_of_subset hsub]
  refine ⟨s, ?_, ?_⟩
  · rw [Finset.mem_sdiff, List.mem_toFinset, List.mem_toFinset]
    exact ⟨hu, hv⟩
  · rw [Finset.mem_sdiff, List.toFinset_cons]
    intro hc
    exact hc.2 (Finset.mem_insert_self _ _)

theorem sdiff_toFinset_cons_eq {u : List String} (v : List String) {s : String}
    (hm : s ∉ u) :
    u.toFinset \ (s :: v).toFinset = u.toFinset \ v.toFinset := by
  ext x
  simp only [List.toFinset_cons, Finset.mem_sdiff, Finset.mem_insert, List.mem_toFinset]
  constructor
  · rintro ⟨hxu, hxn⟩
    exact ⟨hxu, fun hxv => hxn (Or.inr hxv)⟩
  · rintro ⟨hxu, hxn⟩
    refine ⟨hxu, fun hc => ?_⟩
    rcases hc with rfl | hxv
    · exact hm hxu
    · exact hxn hxv

def dfsLoop (g : List (String × List String)) :
    List (String × Int) → TraceSt → TraceSt
  | [], st => st
  | (sym, d) :: rest, st =>
    if h : d = 0 ∨ sym ∈ st.visited then dfsLoop g rest st
    else
      dfsLoop g ((dictGetD sym g []).map (fun c => (c, d - 1)) ++ rest)
        ⟨sym :: st.visited, dictSet sym (dictGetD sym g []) st.result⟩
termination_by pending st =>
  (((traceUniv g).toFinset \ st.visited.toFinset).card, pending.length)
decreasing_by
  · apply Prod.Lex.right
    simp
  · push_neg at h
    by_cases hm : sym ∈ traceUniv g
    · exact Prod.Lex.left _ _ (sdiff_toFinset_cons_lt hm h.2)
    · rw [show ((((traceUniv g).toFinset \ (sym :: st.visited).toFinset).card,
            ((dictGetD sym g []).map (fun c => (c, d - 1)) ++ rest).length) :
            Nat × Nat) =
          (((traceUniv g).toFinset \ st.visited.toFinset).card, rest.length) from by
        rw [sdiff_toFinset_cons_eq st.visited hm, getD_nil_of_not_mem_traceUniv hm]
        simp]
      apply Prod.Lex.right
      simp

/-- `CodeIndexer.trace(start_symbol, depth)` (commented-out variant):
returns the `result` dict, keys in insertion order. -/
def trace (g : List (String × List String)) (start : String) (depth : Int) :
    List (String × List String) :=
  (dfsLoop g [(start, depth)] ⟨[], []⟩).result

/-! ## Dict lemmas -/

theorem dictFind_dictSet_ne {α : Type} {k k2 : String} (v : α) (d : List (String × α))
    (h : k2 ≠ k) : dictFind k (dictSet k2 v d) = dictFind k d := by
  induction d with
  | nil => simp [dictFind, dictSet, h]
  | cons kv rest ih =>
    cases kv with
    | mk k0 v0 =>
      rw [dictSet]
      by_cases hk : k0 = k2
      · subst hk
        rw [if_pos rfl, dictFind, dictFind, if_neg h, if_neg h]
      · rw [if_neg hk, dictFind, dictFind]
        by_cases h0 : k0 = k
        · rw [if_pos h0, if_pos h0]
        · rw [if_neg h0, if_neg h0, ih]

theorem dictModify_comp {α : Type} (k : String) (f1 f2 : α → α) (d : List (String × α)) :
    dictModify k f1 (dictModify k f2 d) = dictModify k (fun v => f1 (f2 v)) d := by
  induction d with
  | nil => simp [dictModify]
  | cons kv rest ih =>
    cases kv with
    | mk k0 v0 =>
      rw [dictModify]
      by_cases hk : k0 = k
      · rw [if_pos hk, dictModify, if_pos hk, dictModify, if_pos hk]
      · rw [if_neg hk, dictModify, if_neg hk, dictModify, if_neg hk, ih]

theorem dictModify_congr {α : Type} {k : String} {f1 f2 : α → α}
    (h : ∀ v, f1 v = f2 v) (d : List (String × α)) :
    dictModify k f1 d = dictModify k f2 d := by
  induction d with
  | nil => rfl
  | cons kv rest ih =>
    cases kv with
    | mk k0 v0 =>
      rw [dictModify, dictModify]
      by_cases hk : k0 = k
      · rw [if_pos hk, if_pos hk, h]
      · rw [if_neg hk, if_neg hk, ih]

theorem dictModify_id {α : Type} {k : String} {f : α → α}
    (h : ∀ v, f v = v) (d : List (String × α)) : dictModify k f d = d := by
  induction d with
  | nil => rfl
  | cons kv rest ih =>
    cases kv with
    | mk k0 v0 =>
      rw [dictModify]
      by_cases hk : k0 = k
      · rw [if_pos hk, h]
      · rw [if_neg hk, ih]

/-- Result entries of already-visited symbols are never touched again:
the Python `dfs` returns immediately on `symbol in visited`, and a fresh
expansion writes only under its own (fresh) symbol. -/
theorem dfsLoop_find_preserved (g : List (String × List String))
    (pending : List (String × Int)) (st : TraceSt) (s : String) (h : s ∈ st.visited) :
    dictFind s (dfsLoop g pending st).result = dictFind s st.result := by
  induction pending, st using dfsLoop.induct g with
  | case1 st => simp [dfsLoop]
  | case2 sym d rest st hcond ih =>
    rw [dfsLoop, dif_pos hcond]
    exact ih h
  | case3 sym d rest st hcond ih =>
    rw [dfsLoop, dif_neg hcond]
    have hvis : sym ∉ st.visited := fun hv => hcond (Or.inr hv)
    have hne : sym ≠ s := fun he => hvis (he ▸ h)
    rw [ih (List.mem_cons_of_mem _ h)]
    exact dictFind_dictSet_ne _ _ hne

/-! ## The Context Assembler (`build_context` in `src/main.py`)

`build_context` reads five stores of the (commented-out) indexer that
`src/main.py` instantiates: `entry_points` (a list of dicts, probed with
`ep.get("handler")`), `called_by`, `calls` (through `trace`),
`callback_used_by`, and `get_symbol_code` (a symbol's owning file and
text slice, `None` for an unknown symbol — modelled as an association
list).  The emitted blocks are kept structured (file, symbol, code);
the Python code interpolates them into one string each and joins the
block strings with newlines on return, which touches neither the set of
emitted symbols nor their order. -/

structure QueryIndex where
  entry_points : List (List (String × String))
  calls : List (String × List String)
  called_by : List (String × List String)
  callback_used_by : List (String × List String)
  code : List (String × String × String)

structure CtxBlock where
  file : String
  sym : String
  code : String
deriving DecidableEq, Repr

structure CtxSt where
  seen : List String
  sections : List CtxBlock
deriving DecidableEq, Repr

/-- The nested `add_symbol(sym)` closure: skip if seen, mark seen, skip
(without emitting) when `get_symbol_code` has nothing, else emit one
block. -/
def addSymbolCtx (qidx : QueryIndex) (sym : String) (st : CtxSt) : CtxSt :=
  if sym ∈ st.seen then st
  else
    match dictFind sym qidx.code with
    | none => ⟨st.seen ++ [sym], st.sections⟩
    | some fc => ⟨st.seen ++ [sym], st.sections ++ [⟨fc.1, sym, fc.2⟩]⟩

/-- `build_context(symbol, depth)`: the six relation phases in program
order — entry points whose trace reaches the symbol, callers, the target,
its enclosing class prefix when the name is dotted, every key of
`trace(symbol, depth)`, and callback consumers. -/
def buildContext (qidx : QueryIndex) (symbol : String) (depth : Int) : CtxSt :=
  let st1 := qidx.entry_points.foldl
    (fun st ep =>
      match dictFind "handler" ep with
      | none => st
      | some handler =>
        if symbol ∈ (trace qidx.calls handler depth).map Prod.fst then
          addSymbolCtx qidx handler st
        else st)
    ⟨[], []⟩
  let st2 := (dictGetD symbol qidx.called_by []).foldl
    (fun st p => addSymbolCtx qidx p st) st1
  let st3 := addSymbolCtx qidx symbol st2
  let st4 :=
    if symbol.data.contains '.' then
      addSymbolCtx qidx ((splitOnChar '.' symbol).headD "") st3
    else st3
  let st5 := ((trace qidx.calls symbol depth).map Prod.fst).foldl
    (fun st c => addSymbolCtx qidx c st) st4
  (dictGetD symbol qidx.callback_used_by []).foldl
    (fun st u => addSymbolCtx qidx u st) st5

/-! ## Import survey of a tree (for the import-classification theorem) -/

/-- What one node itself contributes to its file's import record: an
`import_statement` contributes its `dotted_name` children's texts to the
`external` list, an `import_from_statement` with a `module` field
contributes that module's text to the `internal` list — selected purely
by the node's type tag — and every other node type contributes nothing. -/
def ownImports (n : Node) : List String × List String :=
  if n.ty = "import_statement" then ([], n.childrenList.dottedTexts)
  else if n.ty = "import_from_statement" then
    match n.childByField "module" with
    | some m => ([m.text], [])
    | none => ([], [])
  else ([], [])

mutual
/-- The `(internal, external)` import contribution of a whole subtree,
in walk order: the node's own contribution followed by its children's. -/
def nodeImports : Node → List String × List String
  | n@(.mk _ _ _ _ cs) =>
    ((ownImports n).1 ++ (listImports cs).1, (ownImports n).2 ++ (listImports cs).2)

def listImports : NodeList → List String × List String
  | .nil => ([], [])
  | .cons _ c rest =>
    ((nodeImports c).1 ++ (listImports rest).1, (nodeImports c).2 ++ (listImports rest).2)
end

/-- Append an import contribution to one file's record (a no-op for a
file key that was never seeded, exactly like the walk's own updates). -/
def addImp (f : String) (ie : List String × List String)
    (d : List (String × ImportRec)) : List (String × ImportRec) :=
  dictModify f (fun r => ⟨r.internal ++ ie.1, r.external ++ ie.2⟩) d

theorem addImp_nil (f : String) (d : List (String × ImportRec)) :
    addImp f ([], []) d = d := by
  unfold addImp
  exact dictModify_id (fun v => by simp) d

theorem addImp_addImp (f : String) (a b : List String × List String)
    (d : List (String × ImportRec)) :
    addImp f a (addImp f b d) = addImp f (b.1 ++ a.1, b.2 ++ a.2) d := by
  unfold addImp
  rw [dictModify_comp]
  exact dictModify_congr (fun v => by simp) d

theorem callStoreUpdate_imports (n : Node) (fname : String) (st : IState) :
    (callStoreUpdate n fname st).imports = st.imports := by
  unfold callStoreUpdate
  cases n.childByField "function" with
  | none => cases n.childByField "arguments" <;> rfl
  | some fnNode =>
    by_cases hid : fnNode.ty = "identifier" <;>
      cases n.childByField "arguments" <;> simp [hid]

/-- The per-node body touches `imports` exactly as its own contribution
prescribes: the two import branches append under the current file's key,
every other branch leaves `imports` untouched. -/
theorem processNode_imports (n : Node) (f : String) (cc cf : Option String) (st : IState)
    (res : IState × Option String × Option String)
    (h : processNode n f cc cf st = .ok res) :
    res.1.imports = addImp f (ownImports n) st.imports := by
  have hext : dictModify f (ImportRec.addExternal n.childrenList.dottedTexts) st.imports =
      addImp f ([], n.childrenList.dottedTexts) st.imports :=
    dictModify_congr (fun v => by simp [ImportRec.addExternal]) st.imports
  unfold processNode at h
  split_ifs at h with h1 h2 h3 h4 h5 h6
  · -- class_definition
    split at h
    · simp at h
    · simp only [Except.ok.injEq] at h
      rw [← h]
      simp [ownImports, h1, addImp_nil]
  · -- function_definition
    split at h
    · simp at h
    · simp only [Except.ok.injEq] at h
      rw [← h]
      cases cc <;> simp [ownImports, h2, addImp_nil]
  · -- import_statement
    simp only [Except.ok.injEq] at h
    rw [← h]
    simp only [ownImports, h3, if_pos]
    simpa using hext
  · -- import_from_statement
    split at h
    · rename_i x m heq
      simp only [Except.ok.injEq] at h
      rw [← h]
      simp only [ownImports, h3, h4, heq, if_false, if_true]
      exact dictModify_congr (fun v => by simp [ImportRec.addInternal]) st.imports
    · rename_i x heq
      simp only [Except.ok.injEq] at h
      rw [← h]
      simp [ownImports, h3, h4, heq, addImp_nil]
  · -- call
    have hown : ownImports n = ([], []) := by
      simp [ownImports, h3, h4]
    rw [hown, addImp_nil]
    cases cf with
    | none =>
      simp only [Except.ok.injEq] at h
      rw [← h]
    | some fname =>
      simp only [Except.ok.injEq] at h
      rw [← h]
      exact callStoreUpdate_imports n fname st
  · -- if_statement / try_statement
    have hown : ownImports n = ([], []) := by
      rcases h6 with h6 | h6 <;> simp [ownImports, h6]
    rw [hown, addImp_nil]
    cases cf with
    | none =>
      simp only [Except.ok.injEq] at h
      rw [← h]
    | some fname =>
      simp only [Except.ok.injEq] at h
      rw [← h]
  · -- any other node type
    simp only [Except.ok.injEq] at h
    rw [← h]
    simp [ownImports, h1, h2, h3, h4, addImp_nil]

mutual
/-- Import survey of a successful walk: after walking `n` for file `f`,
the `imports` store has received exactly the subtree's contribution,
appended under the key `f`, and nothing else. -/
theorem walkAst_imports : ∀ (n : Node) (f : String) (cc cf : Option String)
    (st st' : IState), walkAst n f cc cf st = .ok st' →
    st'.imports = addImp f (nodeImports n) st.imports
  | .mk ty tx s e cs, f, cc, cf, st, st', h => by
    rw [walkAst] at h
    cases hp : processNode (.mk ty tx s e cs) f cc cf st with
    | error er => rw [hp] at h; exact absurd h (by simp)
    | ok res =>
      rw [hp] at h
      obtain ⟨st1, cc1, cf1⟩ := res
      have h1 := processNode_imports _ f cc cf st _ hp
      have h2 := walkChildren_imports cs f cc1 cf1 st1 st' h
      rw [h2, h1, addImp_addImp]
      rfl

theorem walkChildren_imports : ∀ (ns : NodeList) (f : String) (cc cf : Option String)
    (st st' : IState), walkChildren ns f cc cf st = .ok st' →
    st'.imports = addImp f (listImports ns) st.imports
  | .nil, f, cc, cf, st, st', h => by
    rw [walkChildren] at h
    simp only [Except.ok.injEq] at h
    rw [← h, listImports, addImp_nil]
  | .cons tag c rest, f, cc, cf, st, st', h => by
    rw [walkChildren] at h
    cases hw : walkAst c f cc cf st with
    | error er => rw [hw] at h; exact absurd h (by simp)
    | ok st1 =>
      rw [hw] at h
      have h1 := walkAst_imports c f cc cf st st1 hw
      have h2 := walkChildren_imports rest f cc cf st1 st' h
      rw [h2, h1, addImp_addImp]
      rfl
end

/-! ## Context dedup invariant -/

/-- Invariant of `build_context`'s accumulation: the emitted block symbols
are duplicate-free, and every emitted symbol has been marked seen. -/
def ctxInv (st : CtxSt) : Prop :=
  (st.sections.map CtxBlock.sym).Nodup ∧ ∀ s ∈ st.sections.map CtxBlock.sym, s ∈ st.seen

theorem addSymbolCtx_inv (qidx : QueryIndex) (sym : String) (st : CtxSt)
    (h : ctxInv st) : ctxInv (addSymbolCtx qidx sym st) := by
  unfold addSymbolCtx
  by_cases hs : sym ∈ st.seen
  · rw [if_pos hs]
    exact h
  · rw [if_neg hs]
    cases hc : dictFind sym qidx.code with
    | none =>
      exact ⟨h.1, fun s hsec => List.mem_append_left _ (h.2 s hsec)⟩
    | some fc =>
      constructor
      · rw [List.map_append, List.nodup_append]
        refine ⟨h.1, by simp, ?_⟩
        intro a ha hb
        simp at hb
        subst hb
        exact hs (h.2 _ ha)
      · intro s hsec
        rw [List.map_append] at hsec
        rcases List.mem_append.mp hsec with h1 | h1
        · exact List.mem_append_left _ (h.2 s h1)
        · simp at h1
          subst h1
          exact List.mem_append_right _ (by simp)

theorem foldl_ctxInv {β : Type} (step : CtxSt → β → CtxSt)
    (hstep : ∀ st x, ctxInv st → ctxInv (step st x)) :
    ∀ (l : List β) (st : CtxSt), ctxInv st → ctxInv (l.foldl step st)
  | [], _, h => h
  | x :: rest, st, h => foldl_ctxInv step hstep rest (step st x) (hstep st x h)


/-! ## General trace lemmas -/

/-- `max_depth = 0` aborts before anything is recorded: the result is the
empty dict (the start key itself is absent). -/
theorem trace_zero (g : List (String × List String)) (s : String) :
    trace g s 0 = [] := by
  unfold trace
  rw [dfsLoop, dif_pos (Or.inl rfl), dfsLoop]

/-- For any nonzero depth the start symbol — known to the call store or
not — is recorded as a key, mapped to its direct targets (`[]` when the
store has none). -/
theorem trace_start_key (g : List (String × List String)) (s : String) (d : Int)
    (hd : d ≠ 0) : dictFind s (trace g s d) = some (dictGetD s g []) := by
  unfold trace
  rw [dfsLoop, dif_neg (by simp [hd])]
  rw [dfsLoop_find_preserved g _ _ s (List.mem_cons_self s [])]
  simp [dictFind, dictSet]

/-! ## File-view partition lemmas -/

theorem firstDedupAux_mem (x : String) :
    ∀ (l seen : List String), x ∈ firstDedupAux l seen ↔ x ∈ l ∧ x ∉ seen := by
  intro l
  induction l with
  | nil => intro seen; simp [firstDedupAux]
  | cons a rest ih =>
    intro seen
    rw [firstDedupAux]
    by_cases h : a ∈ seen
    · rw [if_pos h, ih]
      constructor
      · rintro ⟨hx, hn⟩
        exact ⟨List.mem_cons_of_mem _ hx, hn⟩
      · rintro ⟨hx, hn⟩
        rcases List.mem_cons.mp hx with rfl | hx
        · exact absurd h hn
        · exact ⟨hx, hn⟩
    · rw [if_neg h]
      simp only [List.mem_cons, ih]
      constructor
      · rintro (rfl | ⟨hx, hn⟩)
        · exact ⟨Or.inl rfl, h⟩
        · exact ⟨Or.inr hx, fun hs => hn (Or.inr hs)⟩
      · rintro ⟨rfl | hx, hn⟩
        · exact Or.inl rfl
        · by_cases hxa : x = a
          · exact Or.inl hxa
          · exact Or.inr ⟨hx, fun hs => hs.elim hxa hn⟩

theorem firstDedupAux_nodup :
    ∀ (l seen : List String), (firstDedupAux l seen).Nodup := by
  intro l
  induction l with
  | nil => intro seen; exact List.nodup_nil
  | cons a rest ih =>
    intro seen
    rw [firstDedupAux]
    by_cases h : a ∈ seen
    · rw [if_pos h]
      exact ih seen
    · rw [if_neg h]
      refine List.nodup_cons.mpr ⟨?_, ih (a :: seen)⟩
      intro hmem
      exact ((firstDedupAux_mem a rest (a :: seen)).mp hmem).2 (List.mem_cons_self a seen)

theorem firstDedup_nodup (l : List String) : (firstDedup l).Nodup :=
  firstDedupAux_nodup l []

theorem firstDedup_mem (x : String) (l : List String) : x ∈ firstDedup l ↔ x ∈ l := by
  rw [firstDedup, firstDedupAux_mem]
  simp

theorem SymbolMeta.file_cls (n q f : String) (ms inh : List String) (r : LineRange) :
    (SymbolMeta.cls n q f ms inh r).file = f := rfl

theorem SymbolMeta.file_fn (n q f : String) (cs cb cbs : List String)
    (cfl : List CFMarker) (r : LineRange) : (SymbolMeta.fn n q f cs cb cbs cfl r).file = f := rfl

theorem SymbolMeta.qname_cls (n q f : String) (ms inh : List String) (r : LineRange) :
    (SymbolMeta.cls n q f ms inh r).qname = q := rfl

theorem SymbolMeta.qname_fn (n q f : String) (cs cb cbs : List String)
    (cfl : List CFMarker) (r : LineRange) : (SymbolMeta.fn n q f cs cb cbs cfl r).qname = q := rfl

theorem classViewOf_cls (n q f : String) (ms inh : List String) (r : LineRange) :
    classViewOf (.cls n q f ms inh r) = some ⟨n, q, inh, ms, r⟩ := rfl

theorem classViewOf_fn (n q f : String) (cs cb cbs : List String)
    (cfl : List CFMarker) (r : LineRange) :
    classViewOf (.fn n q f cs cb cbs cfl r) = none := rfl

theorem fnViewOf_cls (n q f : String) (ms inh : List String) (r : LineRange) :
    fnViewOf (.cls n q f ms inh r) = none := rfl

theorem fnViewOf_fn (n q f : String) (cs cb cbs : List String)
    (cfl : List CFMarker) (r : LineRange) :
    fnViewOf (.fn n q f cs cb cbs cfl r) = some ⟨n, q, cs, cb, cbs, cfl, r⟩ := rfl

/-- The qualified names of one file view, classes first then functions,
are a permutation of the qualified names of the state's symbols owned by
that file, in store order. -/
theorem fileViewOf_qnames_perm (st : IState) (p : String) :
    ((fileViewOf st p).classes.map ClassView.qualified_name ++
      (fileViewOf st p).functions.map FunctionView.qualified_name).Perm
    ((st.symbol_defs.filter (fun kv => kv.2.file = p)).map (fun kv => kv.2.qname)) := by
  show ((st.symbol_defs.filterMap (fun kv => if kv.2.file = p then classViewOf kv.2 else none)).map
        ClassView.qualified_name ++
      (st.symbol_defs.filterMap (fun kv => if kv.2.file = p then fnViewOf kv.2 else none)).map
        FunctionView.qualified_name).Perm _
  induction st.symbol_defs with
  | nil => simp
  | cons kv rest ih =>
    obtain ⟨k, m⟩ := kv
    cases m with
    | cls n q f ms inh r =>
      by_cases hf : f = p
      · simp only [List.filterMap_cons, List.filter_cons, SymbolMeta.file_cls, hf,
          classViewOf_cls, fnViewOf_cls, SymbolMeta.qname_cls,
          decide_True, if_true, List.map_cons, List.cons_append, eq_self_iff_true]
        exact ih.cons q
      · simp only [List.filterMap_cons, List.filter_cons, SymbolMeta.file_cls, hf,
          decide_False, if_false, if_neg hf]
        exact ih
    | fn n q f cs cb cbs cfl r =>
      by_cases hf : f = p
      · simp only [List.filterMap_cons, List.filter_cons, SymbolMeta.file_fn, hf,
          classViewOf_fn, fnViewOf_fn, SymbolMeta.qname_fn,
          decide_True, if_true, List.map_cons, List.cons_append, eq_self_iff_true]
        exact List.perm_middle.trans (ih.cons q)
      · simp only [List.filterMap_cons, List.filter_cons, SymbolMeta.file_fn, hf,
          decide_False, if_false, if_neg hf]
        exact ih

theorem flatMap_filter_cons_perm {α : Type} (keyf : α → String) (kv : α) (rest : List α) :
    ∀ (paths : List String), paths.Nodup → keyf kv ∈ paths →
    (paths.flatMap (fun p => (kv :: rest).filter (fun x => keyf x = p))).Perm
      (kv :: paths.flatMap (fun p => rest.filter (fun x => keyf x = p))) := by
  intro paths
  induction paths with
  | nil => intro _ hmem; simp at hmem
  | cons p ps ih =>
    intro hnd hmem
    obtain ⟨hp, hps⟩ := List.nodup_cons.mp hnd
    by_cases hk : keyf kv = p
    · have hcongr : ps.flatMap (fun q => (kv :: rest).filter (fun x => keyf x = q)) =
          ps.flatMap (fun q => rest.filter (fun x => keyf x = q)) := by
        apply List.flatMap_congr
        intro q hq
        have hne : keyf kv ≠ q := fun he => hp ((hk ▸ he) ▸ hq)
        rw [List.filter_cons, if_neg (by simp [hne])]
      have h1 : (kv :: rest).filter (fun x => keyf x = p) =
          kv :: rest.filter (fun x => keyf x = p) := by
        rw [List.filter_cons, if_pos (by simp [hk])]
      rw [List.flatMap_cons, List.flatMap_cons, hcongr, h1, List.cons_append]
    · have hmem2 : keyf kv ∈ ps := (List.mem_cons.mp hmem).resolve_left hk
      have h1 : (kv :: rest).filter (fun x => keyf x = p) =
          rest.filter (fun x => keyf x = p) := by
        rw [List.filter_cons, if_neg (by simp [hk])]
      rw [List.flatMap_cons, List.flatMap_cons, h1]
      refine ((ih hps hmem2).append_left _).trans ?_
      exact List.perm_middle

theorem flatMap_fiber_perm {α : Type} (keyf : α → String) :
    ∀ (l : List α) (paths : List String), paths.Nodup → (∀ x ∈ l, keyf x ∈ paths) →
    (paths.flatMap (fun p => l.filter (fun x => keyf x = p))).Perm l := by
  intro l
  induction l with
  | nil =>
    intro paths _ _
    simp
  | cons kv rest ih =>
    intro paths hnd hall
    refine (flatMap_filter_cons_perm keyf kv rest paths hnd
      (hall kv (List.mem_cons_self kv rest))).trans ?_
    exact (ih paths hnd (fun x hx => hall x (List.mem_cons_of_mem _ hx))).cons kv

/-- The qualified names listed across a sequence of file views, in view
then member order. -/
def viewQnames (v : FileView) : List String :=
  v.classes.map ClassView.qualified_name ++ v.functions.map FunctionView.qualified_name

def allViewQnames (views : List FileView) : List String := views.flatMap viewQnames

theorem flatMap_perm_of_pointwise {α β : Type} (l : List α) (f g : α → List β)
    (h : ∀ a ∈ l, (f a).Perm (g a)) : (l.flatMap f).Perm (l.flatMap g) := by
  induction l with
  | nil => simp
  | cons a rest ih =>
    rw [List.flatMap_cons, List.flatMap_cons]
    exact (h a (List.mem_cons_self a rest)).append
      (ih (fun x hx => h x (List.mem_cons_of_mem _ hx)))

/-- Every registered symbol's qualified name appears among the assembled
views' members exactly as often as it appears in the store: the views
partition the store by owning file. -/
theorem allViewQnames_perm (st : IState) :
    (allViewQnames (buildFileObjects st)).Perm
      (st.symbol_defs.map (fun kv => kv.2.qname)) := by
  have hnd := firstDedup_nodup (st.symbol_defs.map (fun kv => kv.2.file))
  have hfiber := flatMap_fiber_perm (fun kv : String × SymbolMeta => kv.2.file)
    st.symbol_defs (firstDedup (st.symbol_defs.map (fun kv => kv.2.file))) hnd
    (fun x hx => (firstDedup_mem _ _).mpr (List.mem_map_of_mem _ hx))
  have h1 : allViewQnames (buildFileObjects st) =
      (firstDedup (st.symbol_defs.map (fun kv => kv.2.file))).flatMap
        (fun p => viewQnames (fileViewOf st p)) := by
    unfold allViewQnames buildFileObjects
    rw [List.flatMap_map]
  rw [h1]
  have h2 : ((firstDedup (st.symbol_defs.map (fun kv => kv.2.file))).flatMap
      (fun p => viewQnames (fileViewOf st p))).Perm
      ((firstDedup (st.symbol_defs.map (fun kv => kv.2.file))).flatMap
        (fun p => (st.symbol_defs.filter (fun kv => kv.2.file = p)).map
          (fun kv => kv.2.qname))) :=
    flatMap_perm_of_pointwise _ _ _ (fun p _ => fileViewOf_qnames_perm st p)
  refine h2.trans ?_
  rw [← List.map_flatMap]
  exact hfiber.map _

/-! ## The exported called_by lists are invariably empty

`_walk_ast` writes reverse edges only into the repo-level `called_by`
dict; no code path ever touches the `called_by` set stored inside a
function's `symbol_defs` record, so `_build_file_objects` always exports
an empty list there. -/

/-- The `called_by` set stored inside a symbol record (`[]` on class
records, which carry none). -/
def SymbolMeta.calledBy : SymbolMeta → List String
  | .cls _ _ _ _ _ _ => []
  | .fn _ _ _ _ cb _ _ _ => cb

theorem mem_dictSet {α : Type} {kv : String × α} {k : String} {v : α}
    {d : List (String × α)} (h : kv ∈ dictSet k v d) : kv = (k, v) ∨ kv ∈ d := by
  induction d with
  | nil =>
    simp [dictSet] at h
    exact Or.inl h
  | cons kv0 rest ih =>
    cases kv0 with
    | mk k0 v0 =>
      rw [dictSet] at h
      by_cases hk : k0 = k
      · rw [if_pos hk] at h
        rcases List.mem_cons.mp h with rfl | hm
        · exact Or.inl (by rw [hk])
        · exact Or.inr (List.mem_cons_of_mem _ hm)
      · rw [if_neg hk] at h
        rcases List.mem_cons.mp h with rfl | hm
        · exact Or.inr (List.mem_cons_self _ _)
        · rcases ih hm with h1 | h1
          · exact Or.inl h1
          · exact Or.inr (List.mem_cons_of_mem _ h1)

theorem mem_dictModify {α : Type} {kv : String × α} {k : String} {f : α → α}
    {d : List (String × α)} (h : kv ∈ dictModify k f d) :
    kv ∈ d ∨ ∃ v0, (kv.1, v0) ∈ d ∧ kv.2 = f v0 := by
  induction d with
  | nil => simp [dictModify] at h
  | cons kv0 rest ih =>
    cases kv0 with
    | mk k0 v0 =>
      rw [dictModify] at h
      by_cases hk : k0 = k
      · rw [if_pos hk] at h
        rcases List.mem_cons.mp h with rfl | hm
        · exact Or.inr ⟨v0, List.mem_cons_self _ _, rfl⟩
        · exact Or.inl (List.mem_cons_of_mem _ hm)
      · rw [if_neg hk] at h
        rcases List.mem_cons.mp h with rfl | hm
        · exact Or.inl (List.mem_cons_self _ _)
        · rcases ih hm with h1 | h1
          · exact Or.inl (List.mem_cons_of_mem _ h1)
          · obtain ⟨vv, hvv, he⟩ := h1
            exact Or.inr ⟨vv, List.mem_cons_of_mem _ hvv, he⟩

theorem calledBy_appendMethod (nm : String) (m : SymbolMeta) :
    (m.appendMethod nm).calledBy = m.calledBy := by cases m <;> rfl

theorem calledBy_addCall (c : String) (m : SymbolMeta) :
    (m.addCall c).calledBy = m.calledBy := by cases m <;> rfl

theorem calledBy_addCallbacks (ids : List String) (m : SymbolMeta) :
    (m.addCallbacks ids).calledBy = m.calledBy := by cases m <;> rfl

theorem calledBy_addControlFlow (mk0 : CFMarker) (m : SymbolMeta) :
    (m.addControlFlow mk0).calledBy = m.calledBy := by cases m <;> rfl

theorem calledByNil_dictModify {f : SymbolMeta → SymbolMeta}
    (hf : ∀ m, (f m).calledBy = m.calledBy) {k : String} {d : List (String × SymbolMeta)}
    (h : ∀ kv ∈ d, kv.2.calledBy = []) : ∀ kv ∈ dictModify k f d, kv.2.calledBy = [] := by
  intro kv hm
  rcases mem_dictModify hm with h1 | h1
  · exact h kv h1
  · obtain ⟨v0, hv0, he⟩ := h1
    rw [he, hf]
    exact h (kv.1, v0) hv0

theorem calledByNil_dictSet {v : SymbolMeta} (hv : v.calledBy = []) {k : String}
    {d : List (String × SymbolMeta)} (h : ∀ kv ∈ d, kv.2.calledBy = []) :
    ∀ kv ∈ dictSet k v d, kv.2.calledBy = [] := by
  intro kv hm
  rcases mem_dictSet hm with rfl | h1
  · exact hv
  · exact h kv h1

theorem callStoreUpdate_calledBy (n : Node) (fname : String) (st : IState)
    (h : ∀ kv ∈ st.symbol_defs, kv.2.calledBy = []) :
    ∀ kv ∈ (callStoreUpdate n fname st).symbol_defs, kv.2.calledBy = [] := by
  unfold callStoreUpdate
  cases n.childByField "function" with
  | none =>
    cases n.childByField "arguments" with
    | none => exact h
    | some args => exact calledByNil_dictModify (calledBy_addCallbacks _) h
  | some fnNode =>
    by_cases hid : fnNode.ty = "identifier"
    · simp only [if_pos hid]
      cases n.childByField "arguments" with
      | none => exact calledByNil_dictModify (calledBy_addCall _) h
      | some args =>
        exact calledByNil_dictModify (calledBy_addCallbacks _)
          (calledByNil_dictModify (calledBy_addCall _) h)
    · simp only [if_neg hid]
      cases n.childByField "arguments" with
      | none => exact h
      | some args => exact calledByNil_dictModify (calledBy_addCallbacks _) h

theorem processNode_calledBy (n : Node) (f : String) (cc cf : Option String) (st : IState)
    (res : IState × Option String × Option String) (h : processNode n f cc cf st = .ok res)
    (hinv : ∀ kv ∈ st.symbol_defs, kv.2.calledBy = []) :
    ∀ kv ∈ res.1.symbol_defs, kv.2.calledBy = [] := by
  unfold processNode at h
  split_ifs at h with h1 h2 h3 h4 h5 h6
  · split at h
    · simp at h
    · simp only [Except.ok.injEq] at h
      rw [← h]
      refine calledByNil_dictSet ?_ hinv
      rfl
  · split at h
    · simp at h
    · simp only [Except.ok.injEq] at h
      rw [← h]
      cases cc with
      | none =>
        refine calledByNil_dictSet ?_ hinv
        rfl
      | some c =>
        refine calledByNil_dictModify (calledBy_appendMethod _)
          (calledByNil_dictSet ?_ hinv)
        rfl
  · simp only [Except.ok.injEq] at h
    rw [← h]
    exact hinv
  · split at h
    · simp only [Except.ok.injEq] at h
      rw [← h]
      exact hinv
    · simp only [Except.ok.injEq] at h
      rw [← h]
      exact hinv
  · cases cf with
    | none =>
      simp only [Except.ok.injEq] at h
      rw [← h]
      exact hinv
    | some fname =>
      simp only [Except.ok.injEq] at h
      rw [← h]
      exact callStoreUpdate_calledBy n fname st hinv
  · cases cf with
    | none =>
      simp only [Except.ok.injEq] at h
      rw [← h]
      exact hinv
    | some fname =>
      simp only [Except.ok.injEq] at h
      rw [← h]
      exact calledByNil_dictModify (calledBy_addControlFlow _) hinv
  · simp only [Except.ok.injEq] at h
    rw [← h]
    exact hinv

mutual
theorem walkAst_calledBy : ∀ (n : Node) (f : String) (cc cf : Option String)
    (st st' : IState), walkAst n f cc cf st = .ok st' →
    (∀ kv ∈ st.symbol_defs, kv.2.calledBy = []) →
    ∀ kv ∈ st'.symbol_defs, kv.2.calledBy = []
  | .mk ty tx s e cs, f, cc, cf, st, st', h, hinv => by
    rw [walkAst] at h
    cases hp : processNode (.mk ty tx s e cs) f cc cf st with
    | error er => rw [hp] at h; exact absurd h (by simp)
    | ok res =>
      rw [hp] at h
      obtain ⟨st1, cc1, cf1⟩ := res
      exact walkChildren_calledBy cs f cc1 cf1 st1 st' h
        (processNode_calledBy _ f cc cf st _ hp hinv)

theorem walkChildren_calledBy : ∀ (ns : NodeList) (f : String) (cc cf : Option String)
    (st st' : IState), walkChildren ns f cc cf st = .ok st' →
    (∀ kv ∈ st.symbol_defs, kv.2.calledBy = []) →
    ∀ kv ∈ st'.symbol_defs, kv.2.calledBy = []
  | .nil, f, cc, cf, st, st', h, hinv => by
    rw [walkChildren] at h
    simp only [Except.ok.injEq] at h
    rw [← h]
    exact hinv
  | .cons tag c rest, f, cc, cf, st, st', h, hinv => by
    rw [walkChildren] at h
    cases hw : walkAst c f cc cf st with
    | error er => rw [hw] at h; exact absurd h (by simp)
    | ok st1 =>
      rw [hw] at h
      exact walkChildren_calledBy rest f cc cf st1 st' h
        (walkAst_calledBy c f cc cf st st1 hw hinv)
end

theorem walkRepo_calledBy : ∀ (files : List RepoFile) (st st' : IState),
    walkRepo st files = .ok st' → (∀ kv ∈ st.symbol_defs, kv.2.calledBy = []) →
    ∀ kv ∈ st'.symbol_defs, kv.2.calledBy = []
  | [], st, st', h, hinv => by
    rw [walkRepo] at h
    simp only [Except.ok.injEq] at h
    rw [← h]
    exact hinv
  | fl :: rest, st, st', h, hinv => by
    rw [walkRepo] at h
    split at h
    next e heq => exact absurd h (by simp)
    next src tree heq =>
      split at h
      next e2 heq2 => exact absurd h (by simp)
      next st1 heq2 =>
        exact walkRepo_calledBy rest st1 st' h
          (walkAst_calledBy tree fl.relPath none none _ st1 heq2 hinv)

/-- In every successfully built Index, every function view's exported
`called_by` list is empty: the per-symbol `called_by` sets are created
empty and no code path ever mutates them. -/
theorem index_calledBy_nil (repoId rootPath : String) (files : List RepoFile) (j : IndexJson)
    (h : indexRepo repoId rootPath files = .ok j) :
    ∀ fv ∈ j.files, ∀ fnv ∈ fv.functions, fnv.called_by = [] := by
  unfold indexRepo at h
  cases hw : walkRepo initState files with
  | error e => rw [hw] at h; exact absurd h (by simp)
  | ok st =>
    rw [hw] at h
    simp only [Except.ok.injEq] at h
    have hinv : ∀ kv ∈ st.symbol_defs, kv.2.calledBy = [] :=
      walkRepo_calledBy files initState st hw (by intro kv hkv; simp [initState] at hkv)
    intro fv hfv fnv hfnv
    rw [← h] at hfv
    rcases List.mem_map.mp hfv with ⟨p, hp, rfl⟩
    rcases List.mem_filterMap.mp hfnv with ⟨kv, hkv, he⟩
    by_cases hf : kv.2.file = p
    · rw [if_pos hf] at he
      cases hm : kv.2 with
      | cls n q f0 ms inh r =>
        rw [hm] at he
        exact absurd he (by simp [fnViewOf_cls])
      | fn nn qq ff css cbb cbss cfll rr =>
        rw [hm] at he
        rw [fnViewOf_fn] at he
        have hcb : cbb = [] := by
          have hx := hinv kv hkv
          rw [hm] at hx
          exact hx
        injection he with he2
        rw [← he2]
        exact hcb
    · rw [if_neg hf] at he
      exact absurd he (by simp)

/-! ## Concrete demonstration repositories -/

def idNode (nm : String) (r : Nat) : Node := nodeOf "identifier" nm r r []

/-- `file1.py`: `class Widget` with method `render` whose body calls the
global `log()`. -/
def demoTree1 : Node :=
  nodeOf "module" "" 0 2 [
    (none, nodeOf "class_definition" "" 0 2 [
      (some "name", idNode "Widget" 0),
      (none, nodeOf "block" "" 1 2 [
        (none, nodeOf "function_definition" "" 1 2 [
          (some "name", idNode "render" 1),
          (none, nodeOf "block" "" 2 2 [
            (none, nodeOf "expression_statement" "" 2 2 [
              (none, nodeOf "call" "log()" 2 2 [
                (some "function", idNode "log" 2),
                (some "arguments", nodeOf "argument_list" "()" 2 2 [])])])])])])])]

/-- `file2.py`: `def log(): pass`. -/
def demoTree2 : Node :=
  nodeOf "module" "" 0 1 [
    (none, nodeOf "function_definition" "" 0 1 [
      (some "name", idNode "log" 0),
      (none, nodeOf "block" "pass" 1 1 [])])]

def demo1Files : List RepoFile :=
  [⟨"file1.py", .ok ("class Widget:\n  def render(self):\n    log()", demoTree1)⟩,
   ⟨"file2.py", .ok ("def log(): pass", demoTree2)⟩]

/-- One module with three plain imports: `os` (standard library),
`requestsX` (third party), `mypkg` (an intra-repo root directory). -/
def demoImportTree : Node :=
  nodeOf "module" "" 0 2 [
    (none, nodeOf "import_statement" "" 0 0 [
      (none, nodeOf "dotted_name" "os" 0 0 [])]),
    (none, nodeOf "import_statement" "" 1 1 [
      (none, nodeOf "dotted_name" "requestsX" 1 1 [])]),
    (none, nodeOf "import_statement" "" 2 2 [
      (none, nodeOf "dotted_name" "mypkg" 2 2 [])])]

def demo2Files : List RepoFile := [⟨"app.py", .ok ("...", demoImportTree)⟩]

/-- `withsym.py`: one function definition. -/
def demoDefTree : Node :=
  nodeOf "module" "" 0 1 [
    (none, nodeOf "function_definition" "" 0 1 [
      (some "name", idNode "f" 0),
      (none, nodeOf "block" "pass" 1 1 [])])]

/-- `empty.py`: a module defining no classes and no functions. -/
def demoEmptyTree : Node := nodeOf "module" "" 0 0 []

def demo3Files : List RepoFile :=
  [⟨"withsym.py", .ok ("def f(): pass", demoDefTree)⟩,
   ⟨"empty.py", .ok ("", demoEmptyTree)⟩]

/-- A file whose `open(...).read()` raises. -/
def demoBadFile : RepoFile := ⟨"bad.py", .error "PermissionError"⟩

def demo4Files : List RepoFile :=
  [⟨"good.py", .ok ("def f(): pass", demoDefTree)⟩, demoBadFile,
   ⟨"good2.py", .ok ("", demoEmptyTree)⟩]

/-! ## Observers over the produced artefacts (total, decidable) -/

def okIndex : Except String IndexJson → Option IndexJson
  | .ok j => some j
  | .error _ => none

def indexErr : Except String IndexJson → Option String
  | .ok _ => none
  | .error e => some e

def jsonFunctionViews (j : IndexJson) : List FunctionView :=
  j.files.flatMap FileView.functions

def findFnView (j : IndexJson) (q : String) : Option FunctionView :=
  (jsonFunctionViews j).find? (fun fv => fv.qualified_name == q)

/-- Does the function view `q`'s exported `calls` list contain `t`? -/
def fnCallsContain (r : Except String IndexJson) (q t : String) : Bool :=
  match okIndex r with
  | some j =>
    match findFnView j q with
    | some fv => fv.calls.contains t
    | none => false
  | none => false

def fnCalledByList (r : Except String IndexJson) (q : String) : Option (List String) :=
  (okIndex r).bind (fun j => (findFnView j q).map FunctionView.called_by)

/-- How many indexed Functions carry the short name `s`. -/
def fnShortNameCount (r : Except String IndexJson) (s : String) : Option Nat :=
  (okIndex r).map (fun j => (jsonFunctionViews j).countP (fun fv => fv.name == s))

def externalDeps (r : Except String IndexJson) : Option (List String) :=
  (okIndex r).map IndexJson.external_dependencies

def filePathsOf (r : Except String IndexJson) : Option (List String) :=
  (okIndex r).map (fun j => j.files.map FileView.path)

def okCalledByStore (r : Except String IState) (t : String) : Option (List String) :=
  match r with
  | .ok st => dictFind t st.called_by
  | .error _ => none

def okFileSource (r : Except String IState) (p : String) : Option String :=
  match r with
  | .ok st => dictFind p st.files_source
  | .error _ => none

/-! ## Claims -/

/-- C1, counterexample.  In the Widget/render/log repository exactly one
Function has short name `log`, and `render` has raw call target `log`;
the claim then demands `"file2.log" ∈ render.calls` and
`"file1.Widget.render" ∈ log.called_by`.  The built Index instead keeps
the bare short name `log` in `render`'s calls and exports an empty
`called_by` for `log`: no resolution to qualified names ever happens. -/
theorem C1_counterexample :
    fnShortNameCount (indexRepo "repo" "root" demo1Files) "log" = some 1
    ∧ fnCallsContain (indexRepo "repo" "root" demo1Files) "file1.Widget.render" "file2.log" = false
    ∧ fnCalledByList (indexRepo "repo" "root" demo1Files) "file2.log" = some []
    ∧ fnCallsContain (indexRepo "repo" "root" demo1Files) "file1.Widget.render" "log" = true := by
  refine ⟨?_, ?_, ?_, ?_⟩ <;> decide

/-- C1, amended.  After indexing, a caller's exported calls list holds
the raw short name itself (never a qualified name); the symmetric edge
is recorded only in the indexer-level `called_by` map, keyed by the bare
short name and holding the caller's qualified name; and — in every
successfully built Index whatsoever — each Function's exported
`called_by` list is empty. -/
theorem C1_amended_thm :
    (∀ (repoId rootPath : String) (files : List RepoFile) (j : IndexJson),
        indexRepo repoId rootPath files = .ok j →
        ∀ fv ∈ j.files, ∀ fnv ∈ fv.functions, fnv.called_by = [])
    ∧ fnCallsContain (indexRepo "repo" "root" demo1Files) "file1.Widget.render" "log" = true
    ∧ fnCalledByList (indexRepo "repo" "root" demo1Files) "file2.log" = some []
    ∧ okCalledByStore (walkRepo initState demo1Files) "log" = some ["file1.Widget.render"] :=
  ⟨index_calledBy_nil, by decide, by decide, by decide⟩

/-- The Index document the Widget/render/log repository produces. -/
def demo1Json : IndexJson :=
  ⟨"repo", "root", [],
   [⟨"./", ["file1.py", "file2.py"]⟩],
   [⟨"file1.py", ⟨[], []⟩,
     [⟨"Widget", "file1.Widget", [], ["render"], ⟨1, 3⟩⟩],
     [⟨"render", "file1.Widget.render", ["log"], [], [], [], ⟨2, 3⟩⟩]⟩,
    ⟨"file2.py", ⟨[], []⟩, [],
     [⟨"log", "file2.log", [], [], [], [], ⟨1, 2⟩⟩]⟩]⟩

/-- C1, witness: the amended theorem's general half applied to the
concrete Widget/render/log run. -/
theorem C1_witness :
    indexRepo "repo" "root" demo1Files = Except.ok demo1Json
    ∧ ∀ fv ∈ demo1Json.files, ∀ fnv ∈ fv.functions, fnv.called_by = [] :=
  ⟨rfl, C1_amended_thm.1 "repo" "root" demo1Files demo1Json rfl⟩

/-- C2, counterexample.  With no manifest handling at all, the imports
`os`, `requestsX`, `mypkg` still produce `external_dependencies = []`,
not the claimed `{"requestsX"}`. -/
theorem C2_counterexample :
    externalDeps (indexRepo "r" "root" demo2Files) = some []
    ∧ some ([] : List String) ≠ some ["requestsX"] := by
  exact ⟨by decide, by decide⟩

/-- C2, amended.  `metadata.external_dependencies` is initialised to the
empty list in `__init__` and never written afterwards: every successful
indexing run reports no external dependencies, whatever was imported. -/
theorem C2_amended_thm (repoId rootPath : String) (files : List RepoFile) (j : IndexJson)
    (h : indexRepo repoId rootPath files = .ok j) : j.external_dependencies = [] := by
  unfold indexRepo at h
  cases hw : walkRepo initState files with
  | error e => rw [hw] at h; exact absurd h (by simp)
  | ok st =>
    rw [hw] at h
    simp only [Except.ok.injEq] at h
    rw [← h]

def emptyRepoJson : IndexJson := ⟨"r", "p", [], [], []⟩

/-- C2, witness: the amended theorem applied to a concrete run. -/
theorem C2_witness :
    indexRepo "r" "p" [] = Except.ok emptyRepoJson
    ∧ emptyRepoJson.external_dependencies = [] :=
  ⟨rfl, C2_amended_thm "r" "p" [] emptyRepoJson rfl⟩

/-- C3, counterexample.  `empty.py` is read and recorded by the walker
(`files_source`), yet `_build_file_objects` seeds its file dict only from
symbols, so the zero-symbol file gets no file view at all. -/
theorem C3_counterexample :
    filePathsOf (indexRepo "r" "root" demo3Files) = some ["withsym.py"]
    ∧ okFileSource (walkRepo initState demo3Files) "empty.py" = some ""
    ∧ ("empty.py" ∉ (["withsym.py"] : List String)) := by
  refine ⟨?_, ?_, ?_⟩ <;> decide

/-- C3, amended.  For a store with duplicate-free keys that equal each
record's qualified name (the walk maintains both), the assembled files
list has one view per file owning at least one symbol — zero-symbol files
get none — with no duplicate paths, and every registered symbol's
qualified name appears across all views exactly once. -/
theorem C3_amended_thm (st : IState)
    (hk : (st.symbol_defs.map Prod.fst).Nodup)
    (hq : ∀ kv ∈ st.symbol_defs, kv.2.qname = kv.1) :
    ((buildFileObjects st).map FileView.path).Nodup
    ∧ (∀ p, p ∈ (buildFileObjects st).map FileView.path ↔
        ∃ kv ∈ st.symbol_defs, kv.2.file = p)
    ∧ ∀ kv ∈ st.symbol_defs, (allViewQnames (buildFileObjects st)).count kv.1 = 1 := by
  have hpaths : (buildFileObjects st).map FileView.path =
      firstDedup (st.symbol_defs.map (fun kv => kv.2.file)) := by
    unfold buildFileObjects
    rw [List.map_map]
    have hcomp : (FileView.path ∘ fileViewOf st) = id := funext (fun p => rfl)
    rw [hcomp, List.map_id]
  refine ⟨?_, ?_, ?_⟩
  · rw [hpaths]
    exact firstDedup_nodup _
  · intro p
    rw [hpaths, firstDedup_mem, List.mem_map]
  · intro kv hkv
    rw [(allViewQnames_perm st).count_eq kv.1]
    have hmapeq : st.symbol_defs.map (fun x => x.2.qname) = st.symbol_defs.map Prod.fst :=
      List.map_congr_left (fun a ha => hq a ha)
    rw [hmapeq]
    exact List.count_eq_one_of_mem hk (List.mem_map_of_mem _ hkv)

/-- A small populated store (one class, one method) for instantiating
the assembled-view theorems. -/
def demoSt3 : IState :=
  ⟨[("m.py", "class C:\n  def f(self): pass")],
   [("m.py", ⟨[], []⟩)],
   [("m.C", .cls "C" "m.C" "m.py" ["f"] [] ⟨1, 2⟩),
    ("m.C.f", .fn "f" "m.C.f" "m.py" [] [] [] [] ⟨2, 2⟩)],
   []⟩

/-- C3, witness: the amended theorem applied to `demoSt3`. -/
theorem C3_witness :
    ((demoSt3.symbol_defs.map Prod.fst).Nodup
      ∧ ∀ kv ∈ demoSt3.symbol_defs, kv.2.qname = kv.1)
    ∧ (((buildFileObjects demoSt3).map FileView.path).Nodup
      ∧ (∀ p, p ∈ (buildFileObjects demoSt3).map FileView.path ↔
          ∃ kv ∈ demoSt3.symbol_defs, kv.2.file = p)
      ∧ ∀ kv ∈ demoSt3.symbol_defs,
          (allViewQnames (buildFileObjects demoSt3)).count kv.1 = 1) :=
  ⟨⟨by decide, by decide⟩, C3_amended_thm demoSt3 (by decide) (by decide)⟩

/-- C4, counterexample.  A repository with a good file, then an
unreadable file, then another good file: indexing aborts with the read
error instead of skipping the bad file and completing the run. -/
theorem C4_counterexample :
    indexErr (indexRepo "r" "root" demo4Files) = some "PermissionError"
    ∧ okIndex (indexRepo "r" "root" demo4Files) = none := by
  exact ⟨by decide, by decide⟩

/-- C4, amended.  `_index_file` opens the file with no exception
handler: the first failing read propagates out of `_walk_repo` and aborts
the whole pass; the files after it are never indexed. -/
theorem C4_amended_thm (st : IState) (f : RepoFile) (rest : List RepoFile) (e : String)
    (h : f.read = .error e) : walkRepo st (f :: rest) = .error e := by
  rw [walkRepo, h]

/-- C4, witness: the amended theorem applied to the unreadable file. -/
theorem C4_witness :
    demoBadFile.read = Except.error "PermissionError"
    ∧ walkRepo initState [demoBadFile] = Except.error "PermissionError" :=
  ⟨rfl, C4_amended_thm initState demoBadFile [] "PermissionError" rfl⟩

/-- The two-node call cycle A→B→A. -/
def cycleG : List (String × List String) := [("A", ["B"]), ("B", ["A"])]

/-- A call store knowing only `f`. -/
def demoG6 : List (String × List String) := [("f", ["g"])]

/-- C5, counterexample.  `max_depth = 0` yields the empty result — the
start node itself is absent, not a single-node result; and a negative
`max_depth` (also `≤ 0`) fully expands the cycle instead of stopping. -/
theorem C5_counterexample :
    trace cycleG "A" 0 = []
    ∧ (trace cycleG "A" 0).length = 0
    ∧ trace cycleG "A" (-1) = [("A", ["B"]), ("B", ["A"])]
    ∧ (trace cycleG "A" (-1)).length = 2 := by
  have h0 : trace cycleG "A" 0 = [] := trace_zero cycleG "A"
  have hneg : trace cycleG "A" (-1) = [("A", ["B"]), ("B", ["A"])] := by
    simp [trace, dfsLoop, dictGetD, dictFind, dictSet]
  exact ⟨h0, by rw [h0]; rfl, hneg, by rw [hneg]; rfl⟩

/-- C5, amended.  `trace` is total (the visited set bounds the
recursion), and on the cycle A→B→A, `trace(A, 2)` contains A and B as
keys exactly once each with exactly their direct targets, never expanding
past 2 edges.  But `max_depth = 0` yields the empty result for every
store and start (the `d == 0` guard fires before anything is recorded),
and a negative `max_depth` expands the whole reachable component. -/
theorem C5_amended_thm :
    trace cycleG "A" 2 = [("A", ["B"]), ("B", ["A"])]
    ∧ (trace cycleG "A" 2).count ("A", ["B"]) = 1
    ∧ (trace cycleG "A" 2).count ("B", ["A"]) = 1
    ∧ (∀ (g : List (String × List String)) (s : String), trace g s 0 = [])
    ∧ trace cycleG "A" (-1) = [("A", ["B"]), ("B", ["A"])] := by
  have h2 : trace cycleG "A" 2 = [("A", ["B"]), ("B", ["A"])] := by
    simp [trace, dfsLoop, dictGetD, dictFind, dictSet]
  have hneg : trace cycleG "A" (-1) = [("A", ["B"]), ("B", ["A"])] := by
    simp [trace, dfsLoop, dictGetD, dictFind, dictSet]
  exact ⟨h2, by rw [h2]; decide, by rw [h2]; decide, fun g s => trace_zero g s, hneg⟩

/-- C6, counterexample.  For the start symbol `zzz`, unknown to the call
store, `trace` returns `{zzz: []}` — the start key is present and the
overall result is nonempty, so callers cannot distinguish an unknown
start from a known isolated one. -/
theorem C6_counterexample :
    trace demoG6 "zzz" 3 = [("zzz", [])]
    ∧ trace demoG6 "zzz" 3 ≠ [] := by
  have h : trace demoG6 "zzz" 3 = [("zzz", [])] := by
    simp [trace, dfsLoop, dictGetD, dictFind, dictSet]
  exact ⟨h, by rw [h]; simp⟩

/-- C6, amended.  For every call store, start symbol and nonzero depth,
the start symbol is a key of the trace result, mapped to its direct
target list — the empty list when the store has no entry for it.  Known
and unknown starts are treated identically; only `depth = 0` produces an
empty result. -/
theorem C6_amended_thm (g : List (String × List String)) (s : String) (d : Int)
    (hd : d ≠ 0) : dictFind s (trace g s d) = some (dictGetD s g []) :=
  trace_start_key g s d hd

/-- C6, witness: the amended theorem at the unknown start `zzz`. -/
theorem C6_witness :
    ((3 : Int) ≠ 0)
    ∧ dictFind "zzz" (trace demoG6 "zzz" 3) = some (dictGetD "zzz" demoG6 []) :=
  ⟨by decide, C6_amended_thm demoG6 "zzz" 3 (by decide)⟩

/-- The qualified name `_walk_ast` gives a function definition: enclosing
class qname plus short name when lexically inside a class, else
file-module path plus short name. -/
def qualifiedNameOf (cc : Option String) (filePath nm : String) : String :=
  match cc with
  | some c => c ++ "." ++ nm
  | none => pyModule filePath ++ "." ++ nm

theorem dictFind_dictSet_self {α : Type} (k : String) (v : α) (d : List (String × α)) :
    dictFind k (dictSet k v d) = some v := by
  induction d with
  | nil => simp [dictFind, dictSet]
  | cons kv rest ih =>
    cases kv with
    | mk k0 v0 =>
      rw [dictSet]
      by_cases hk : k0 = k
      · rw [if_pos hk, dictFind, if_pos hk]
      · rw [if_neg hk, dictFind, if_neg hk, ih]

theorem dictFind_dictModify_ne {α : Type} {k c : String} (f : α → α) (d : List (String × α))
    (h : c ≠ k) : dictFind k (dictModify c f d) = dictFind k d := by
  induction d with
  | nil => simp [dictFind, dictModify]
  | cons kv rest ih =>
    cases kv with
    | mk k0 v0 =>
      rw [dictModify]
      by_cases hk : k0 = c
      · subst hk
        rw [if_pos rfl, dictFind, dictFind, if_neg h, if_neg h]
      · rw [if_neg hk, dictFind, dictFind]
        by_cases h0 : k0 = k
        · rw [if_pos h0, if_pos h0]
        · rw [if_neg h0, if_neg h0, ih]

theorem dictFind_dictModify_self {α : Type} (k : String) (f : α → α) (d : List (String × α)) :
    dictFind k (dictModify k f d) = (dictFind k d).map f := by
  induction d with
  | nil => simp [dictFind, dictModify]
  | cons kv rest ih =>
    cases kv with
    | mk k0 v0 =>
      rw [dictModify]
      by_cases hk : k0 = k
      · rw [if_pos hk, dictFind, if_pos hk, dictFind, if_pos hk, Option.map]
      · rw [if_neg hk, dictFind, if_neg hk, dictFind, if_neg hk, ih]

/-- An enclosing class's qualified name is never its method's qualified
name (the latter is strictly longer). -/
theorem ne_qualifiedNameOf (c0 filePath nm : String) :
    c0 ≠ qualifiedNameOf (some c0) filePath nm := by
  intro h
  have hl : c0.length = (c0 ++ "." ++ nm).length := congrArg String.length h
  rw [String.length_append, String.length_append] at hl
  have hdot : ("." : String).length = 1 := rfl
  omega

/-- C7.  Processing a function definition node registers, under the
qualified name formed from the enclosing class (or else the file-module
path) plus the short name, a fresh function record with empty calls,
callbacks, called_by and control-flow collections; it leaves the
enclosing class unchanged, makes the new symbol the enclosing function
for the subtree, and — when nested in a class — appends exactly the short
name at the end of that class's method list. -/
theorem C7_thm (n : Node) (filePath : String) (cc cf : Option String) (st : IState)
    (nameNode : Node)
    (hty : n.ty = "function_definition")
    (hnm : n.childByField "name" = some nameNode) :
    ∃ st' : IState,
      processNode n filePath cc cf st =
        .ok (st', cc, some (qualifiedNameOf cc filePath nameNode.text))
      ∧ dictFind (qualifiedNameOf cc filePath nameNode.text) st'.symbol_defs =
          some (.fn nameNode.text (qualifiedNameOf cc filePath nameNode.text) filePath
            [] [] [] [] n.range)
      ∧ ∀ c, cc = some c → c ≠ qualifiedNameOf cc filePath nameNode.text →
          dictFind c st'.symbol_defs =
            (dictFind c st.symbol_defs).map (SymbolMeta.appendMethod nameNode.text) := by
  unfold processNode
  rw [if_neg (by simp [hty]), if_pos hty, hnm]
  cases cc with
  | none =>
    refine ⟨_, rfl, ?_, ?_⟩
    · exact dictFind_dictSet_self _ _ _
    · intro c hc
      exact absurd hc (by simp)
  | some c0 =>
    refine ⟨_, rfl, ?_, ?_⟩
    · exact (dictFind_dictModify_ne _ _ (ne_qualifiedNameOf c0 filePath nameNode.text)).trans
        (dictFind_dictSet_self _ _ _)
    · intro c hc hne
      cases hc
      exact (dictFind_dictModify_self _ _ _).trans
        (congrArg (Option.map _) (dictFind_dictSet_ne _ _ (fun he => hne he.symm)))

/-- A method node as tree-sitter would deliver it. -/
def demoFnNode : Node :=
  nodeOf "function_definition" "" 4 6 [
    (some "name", idNode "render" 4),
    (none, nodeOf "block" "" 5 6 [])]

/-- C7, witness: the registration theorem at a concrete method node
nested in class `m.W`. -/
theorem C7_witness :
    demoFnNode.ty = "function_definition"
    ∧ ∃ st' : IState,
        processNode demoFnNode "m.py" (some "m.W") none initState =
          .ok (st', some "m.W", some (qualifiedNameOf (some "m.W") "m.py" (idNode "render" 4).text))
        ∧ dictFind (qualifiedNameOf (some "m.W") "m.py" (idNode "render" 4).text) st'.symbol_defs =
            some (.fn (idNode "render" 4).text
              (qualifiedNameOf (some "m.W") "m.py" (idNode "render" 4).text) "m.py"
              [] [] [] [] demoFnNode.range)
        ∧ ∀ c, (some "m.W" : Option String) = some c →
            c ≠ qualifiedNameOf (some "m.W") "m.py" (idNode "render" 4).text →
            dictFind c st'.symbol_defs =
              (dictFind c initState.symbol_defs).map
                (SymbolMeta.appendMethod (idNode "render" 4).text) :=
  ⟨rfl, C7_thm demoFnNode "m.py" (some "m.W") none initState (idNode "render" 4) rfl rfl⟩

/-- C8.  `build_context` never emits the same qualified name twice: every
emission goes through `add_symbol`, which first checks and then extends
the `seen` set, whichever of the six relation phases reaches the
symbol. -/
theorem C8_thm (qidx : QueryIndex) (symbol : String) (depth : Int) :
    ((buildContext qidx symbol depth).sections.map CtxBlock.sym).Nodup := by
  suffices h : ctxInv (buildContext qidx symbol depth) from h.1
  have hstep1 : ∀ (st : CtxSt) (ep : List (String × String)), ctxInv st →
      ctxInv (match dictFind "handler" ep with
        | none => st
        | some handler =>
          if symbol ∈ (trace qidx.calls handler depth).map Prod.fst then
            addSymbolCtx qidx handler st
          else st) := by
    intro st ep h
    cases dictFind "handler" ep with
    | none => exact h
    | some handler =>
      dsimp only
      split
      · exact addSymbolCtx_inv _ _ _ h
      · exact h
  unfold buildContext
  apply foldl_ctxInv _ (fun st u h => addSymbolCtx_inv qidx u st h)
  apply foldl_ctxInv _ (fun st c h => addSymbolCtx_inv qidx c st h)
  split
  · apply addSymbolCtx_inv
    apply addSymbolCtx_inv
    apply foldl_ctxInv _ (fun st p h => addSymbolCtx_inv qidx p st h)
    apply foldl_ctxInv _ hstep1
    exact ⟨List.nodup_nil, by simp⟩
  · apply addSymbolCtx_inv
    apply foldl_ctxInv _ (fun st p h => addSymbolCtx_inv qidx p st h)
    apply foldl_ctxInv _ hstep1
    exact ⟨List.nodup_nil, by simp⟩

/-- C9.  Import classification depends only on the statement form: for
every successfully walked tree, the file's import record receives exactly
the `nodeImports` contribution — dotted names of plain import statements
into `external`, the module of each from-import into `internal`, selected
purely by node type, with no inspection of the module's origin — and the
assembled file view exports that record verbatim. -/
theorem C9_thm :
    (∀ (n : Node) (f : String) (cc cf : Option String) (st st' : IState),
        walkAst n f cc cf st = .ok st' →
        st'.imports = addImp f (nodeImports n) st.imports)
    ∧ ∀ (st : IState) (fv : FileView), fv ∈ buildFileObjects st →
        fv.imports = dictGetD fv.path st.imports ⟨[], []⟩ := by
  constructor
  · exact fun n f cc cf st st' h => walkAst_imports n f cc cf st st' h
  · intro st fv hfv
    unfold buildFileObjects at hfv
    rcases List.mem_map.mp hfv with ⟨p, hp, rfl⟩
    rfl

/-- The state `_index_file` hands to the walk for `app.py`. -/
def demoSeedSt : IState := ⟨[("app.py", "...")], [("app.py", ⟨[], []⟩)], [], []⟩

/-- The state after walking the three plain imports. -/
def demoSt9 : IState :=
  ⟨[("app.py", "...")], [("app.py", ⟨[], ["os", "requestsX", "mypkg"]⟩)], [], []⟩

/-- C9, witness: both halves applied to concrete data. -/
theorem C9_witness :
    (walkAst demoImportTree "app.py" none none demoSeedSt = Except.ok demoSt9
      ∧ demoSt9.imports = addImp "app.py" (nodeImports demoImportTree) demoSeedSt.imports)
    ∧ (fileViewOf demoSt3 "m.py" ∈ buildFileObjects demoSt3
      ∧ (fileViewOf demoSt3 "m.py").imports =
          dictGetD (fileViewOf demoSt3 "m.py").path demoSt3.imports ⟨[], []⟩) :=
  ⟨⟨rfl, C9_thm.1 demoImportTree "app.py" none none demoSeedSt demoSt9 rfl⟩,
   ⟨by decide, C9_thm.2 demoSt3 (fileViewOf demoSt3 "m.py") (by decide)⟩⟩

theorem dictSet_dictSet_same {α : Type} (k : String) (v1 v2 : α) (d : List (String × α)) :
    dictSet k v2 (dictSet k v1 d) = dictSet k v2 d := by
  induction d with
  | nil => simp [dictSet]
  | cons kv rest ih =>
    cases kv with
    | mk k0 v0 =>
      rw [dictSet]
      by_cases hk : k0 = k
      · rw [if_pos hk, dictSet, if_pos hk, dictSet, if_pos hk]
      · rw [if_neg hk, dictSet, if_neg hk, dictSet, if_neg hk, ih]

/-- A method definition named `f` spanning rows `s..e`. -/
def dupFnNode (s e : Nat) : Node :=
  nodeOf "function_definition" "" s e [
    (some "name", nodeOf "identifier" "f" s s []),
    (none, nodeOf "block" "pass" e e [])]

/-- A class `C` whose body defines the method `f` twice. -/
def dupClassNode (s1 e1 s2 e2 : Nat) : Node :=
  nodeOf "class_definition" "" 0 10 [
    (some "name", nodeOf "identifier" "C" 0 0 []),
    (none, nodeOf "block" "" 1 10 [
      (none, dupFnNode s1 e1),
      (none, dupFnNode s2 e2)])]

/-- C10.  Re-registering an existing qualified name replaces the record
entirely (`d[k] = v`, last definition wins — shown for two method
definitions with arbitrary distinct ranges: the stored record carries the
second range), the store still maps each qualified name to one record,
and the class's method list receives one append per definition, so the
shared short name appears twice. -/
theorem C10_thm (s1 e1 s2 e2 : Nat) :
    (∃ st' : IState,
      walkAst (dupClassNode s1 e1 s2 e2) "m.py" none none initState = .ok st'
      ∧ dictFind "m.C.f" st'.symbol_defs =
          some (.fn "f" "m.C.f" "m.py" [] [] [] [] ⟨s2 + 1, e2 + 1⟩)
      ∧ dictFind "m.C" st'.symbol_defs =
          some (.cls "C" "m.C" "m.py" ["f", "f"] [] ⟨1, 11⟩)
      ∧ st'.symbol_defs.map Prod.fst = ["m.C", "m.C.f"])
    ∧ ∀ (k : String) (v1 v2 : SymbolMeta) (d : List (String × SymbolMeta)),
        dictSet k v2 (dictSet k v1 d) = dictSet k v2 d :=
  ⟨⟨_, rfl, rfl, rfl, rfl⟩, fun k v1 v2 d => dictSet_dictSet_same k v1 v2 d⟩
